import Mathlib

/-!
Verification development for the construct-cache-fixer utility.

The embedding below models `src/main.py` (asset discovery, reference
scanning, reference rewriting, renaming, archive extraction) and the
`construct_cache_fixer.logging` package.  Text content is modelled as
`List Char`; the regular-expression word class `\w` is modelled by the
ASCII rule (letter, digit or underscore), which is exact for the ASCII
inputs the claims are about.  Randomness (`random.choices`) is modelled
by an oracle argument, and the file system by explicit lists of files.
-/

namespace ConstructCacheFixer

/-- Word characters of the regex classes `\w` and `\W` in
`search_for_asset_uses` (main.py line 141): letter, digit or underscore. -/
def isWordChar (c : Char) : Bool := c.isAlphanum || c = '_'

/-- The pattern `p` occurs in `t` starting at index `i`. -/
def occurAt (p t : List Char) (i : Nat) : Prop := ∃ r, t.drop i = p ++ r

/-- The pattern `p` occurs somewhere in `t` (substring containment). -/
def subOf (p t : List Char) : Prop := ∃ u v, t = u ++ p ++ v

/-- Executable substring containment (the semantics of Python `in`). -/
def containsSub (p : List Char) : List Char → Bool
  | [] => p.isEmpty
  | c :: rest => p.isPrefixOf (c :: rest) || containsSub p rest

/-- After a non-word character was seen, the rest of the regex
`\W{name}\W` must match: the name itself, then one more non-word
character.  This models the tail of the compiled pattern of
main.py line 141. -/
def tailMatch (name rest : List Char) : Bool :=
  name.isPrefixOf rest &&
    match rest.drop name.length with
    | d :: _ => !(isWordChar d)
    | [] => false

/-- `re.search` of the compiled pattern `\W{re.escape(name)}\W` on one
line (main.py lines 141 and 147): some position holds a non-word
character followed by the literal name followed by a non-word character. -/
def wwMatch (name : List Char) : List Char → Bool
  | [] => false
  | c :: rest => (!(isWordChar c) && tailMatch name rest) || wwMatch name rest

/-- A match site of the pattern `\W{name}\W`: the name occurs at index
`i`, the character at `i - 1` exists and is a non-word character, and the
character right after the occurrence exists and is a non-word character. -/
def matchSiteAt (name line : List Char) (i : Nat) : Prop :=
  1 ≤ i ∧ (∃ a, line.get? (i - 1) = some a ∧ isWordChar a = false) ∧
    occurAt name line i ∧
    (∃ b, line.get? (i + name.length) = some b ∧ isWordChar b = false)

/-- A standalone (whole-word) occurrence of `name` in `t`: an occurrence
bounded on each side either by the text boundary or by a non-word
character. -/
def standaloneOccur (name t : List Char) : Prop :=
  ∃ i, occurAt name t i ∧
    (i = 0 ∨ ∃ c, t.get? (i - 1) = some c ∧ isWordChar c = false) ∧
    (i + name.length = t.length ∨
      ∃ c, t.get? (i + name.length) = some c ∧ isWordChar c = false)

/-- Splitting a character stream into lines as Python `readlines` does:
each line keeps its trailing newline; a last line without a newline is
kept as well. -/
def splitLinesAux : List Char → List Char → List (List Char)
  | [], acc => if acc.isEmpty then [] else [acc.reverse]
  | c :: rest, acc =>
    if c = '\n' then (acc.reverse ++ ['\n']) :: splitLinesAux rest []
    else splitLinesAux rest (c :: acc)

/-- The lines of a file content, as `file.readlines()` yields them. -/
def splitLines (s : List Char) : List (List Char) := splitLinesAux s []

/-- The per-file scan of `search_for_asset_uses` (main.py lines 145-153):
the file is read line by line and matches when some line matches the
whole-word pattern. -/
def scanContent (name content : List Char) : Bool :=
  (splitLines content).any (fun l => wwMatch name l)

/-- A file system path, split as `pathlib.Path` exposes it: parent
directory, stem and extension (without the dot). -/
structure FsPath where
  dir : List Char
  stem : List Char
  ext : List Char
deriving DecidableEq

/-- `Path.name`: stem plus dot plus extension. -/
def FsPath.name (p : FsPath) : List Char := p.stem ++ '.' :: p.ext

/-- `Path.suffix`: the extension with its leading dot. -/
def FsPath.suffix (p : FsPath) : List Char := '.' :: p.ext

/-- A file on disk: its path and its content. -/
structure SFile where
  path : FsPath
  content : List Char
deriving DecidableEq

def webmExt : List Char := ['w', 'e', 'b', 'm']

def pngE : List Char := ['p', 'n', 'g']

def htmlE : List Char := ['h', 't', 'm', 'l']

def jsE : List Char := ['j', 's']

def jsonE : List Char := ['j', 's', 'o', 'n']

/-- The extension allow-list of `ASSETS_PATTERNS` (main.py lines 24-32). -/
def allowedExts : List (List Char) :=
  [['c', 's', 's'], jsE, jsonE, pngE, ['t', 't', 'f'],
   ['w', 'a', 's', 'm'], webmExt]

/-- The reference name computed by the scanner (main.py line 140):
`asset.stem if asset.suffix == '.webm' else asset.name`. -/
def searchAssetName (asset : FsPath) : List Char :=
  if asset.suffix = '.' :: webmExt then asset.stem else asset.name

/-- The reference name computed by the rewriter (main.py lines 178-179):
the same stem/full-name rule, applied independently per asset. -/
def replaceAssetName (asset : FsPath) : List Char :=
  if asset.suffix = '.' :: webmExt then asset.stem else asset.name

/-- The source files scanned by `search_for_asset_uses` (main.py
lines 132-136): all html files, then all js files, then all json files. -/
def sourceFiles (files : List SFile) : List SFile :=
  files.filter (fun f => decide (f.path.ext = htmlE)) ++
    files.filter (fun f => decide (f.path.ext = jsE)) ++
    files.filter (fun f => decide (f.path.ext = jsonE))

/-- Whether one source file contains a whole-word use of the name. -/
def fileMatches (name : List Char) (f : SFile) : Bool :=
  scanContent name f.content

/-- The ASCII apostrophe used by the error message's f-string. -/
def quoteC : Char := Char.ofNat 39

/-- Rendering of a path, as interpolating a `Path` into an f-string does. -/
def pathStr (p : FsPath) : List Char :=
  p.dir ++ '/' :: p.stem ++ '.' :: p.ext

/-- The message of the `FileNotFoundError` of main.py line 156. -/
def notFoundMsg (asset : FsPath) : List Char :=
  "The asset ".toList ++ quoteC :: pathStr asset ++
    quoteC :: " was not found in the source code.".toList

/-- `search_for_asset_uses` (main.py lines 115-156): yields each source
file containing a whole-word use of the asset's reference name, in
html/js/json order; raises `FileNotFoundError` when no file matches.
The generator is modelled by the list of files it yields; consuming it
raises exactly when that list is empty. -/
def search_for_asset_uses (files : List SFile) (asset : FsPath) :
    Except (List Char) (List FsPath) :=
  let found := (sourceFiles files).filter
    (fun f => fileMatches (searchAssetName asset) f)
  if found.isEmpty then .error (notFoundMsg asset)
  else .ok (found.map (fun f => f.path))

/-- Python `content.replace('', new)`: the new string is inserted before
every character and once at the end. -/
def interEmpty (new : List Char) : List Char → List Char
  | [] => new
  | c :: rest => new ++ c :: interEmpty new rest

/-- Worker for `str.replace`: scans left to right; at a match the
replacement is emitted and `skip` counts the matched characters still to
be consumed (structural recursion on the text). -/
def pyReplaceAux (old new : List Char) : Nat → List Char → List Char
  | 0, [] => []
  | 0, c :: rest =>
    if old ≠ [] ∧ old.isPrefixOf (c :: rest) = true then
      new ++ pyReplaceAux old new (old.length - 1) rest
    else
      c :: pyReplaceAux old new 0 rest
  | _ + 1, [] => []
  | k + 1, _ :: rest => pyReplaceAux old new k rest

/-- Python `content.replace(old, new)` (main.py line 181): every
non-overlapping occurrence of `old`, found left to right, is replaced by
`new`; no word-boundary restriction. -/
def pyReplace (old new s : List Char) : List Char :=
  if old.isEmpty then interEmpty new s else pyReplaceAux old new 0 s

/-- `replace_asset_uses` (main.py lines 159-188): reads the named source
file, replaces every occurrence of the old reference name with the new
one, and writes the result back to the same path, overwriting it.  All
other files keep their path and content. -/
def replace_asset_uses (files : List SFile) (sf : FsPath)
    (oldA newA : FsPath) : List SFile :=
  files.map (fun f =>
    if f.path = sf then
      ⟨f.path, pyReplace (replaceAssetName oldA) (replaceAssetName newA)
        f.content⟩
    else f)

/-- `string.ascii_letters + string.digits`, the alphabet of
`generate_random_string` (main.py line 46). -/
def alphabet : List Char :=
  ['a', 'b', 'c', 'd', 'e', 'f', 'g', 'h', 'i', 'j', 'k', 'l', 'm',
   'n', 'o', 'p', 'q', 'r', 's', 't', 'u', 'v', 'w', 'x', 'y', 'z',
   'A', 'B', 'C', 'D', 'E', 'F', 'G', 'H', 'I', 'J', 'K', 'L', 'M',
   'N', 'O', 'P', 'Q', 'R', 'S', 'T', 'U', 'V', 'W', 'X', 'Y', 'Z',
   '0', '1', '2', '3', '4', '5', '6', '7', '8', '9']

/-- `generate_random_string` (main.py lines 35-46): `length` characters
drawn from the alphabet.  The random draws of `random.choices` are
modelled by the oracle `pick`. -/
def generate_random_string (pick : Nat → Fin 62) (length : Nat) :
    List Char :=
  (List.range length).map (fun i => alphabet.getD (pick i).val 'a')

/-- `rename_asset` (main.py lines 49-63): the new path has the same
directory and extension and the stem gets `_` plus an 8-character random
suffix.  This computes the new path only; the physical rename happens in
`main`. -/
def rename_asset (pick : Nat → Fin 62) (asset : FsPath) : FsPath :=
  ⟨asset.dir, asset.stem ++ '_' :: generate_random_string pick 8,
    asset.ext⟩

/-- Observable side effects of the per-asset loop body of `main`. -/
inductive Ev
  | rewrite (p : FsPath)
  | rename (oldP newP : FsPath)
deriving DecidableEq

/-- One iteration of the per-asset loop of `main` (main.py lines
211-221): scan for uses (raising when none exist), rewrite each found
source file, then rename the asset file on disk.  The returned trace
lists the side effects in program order.  The Python generator
interleaves scanning and rewriting, but each rewrite touches only the
yielded file and every source file is visited once, so the yielded list
and the final contents are those of the eager model. -/
def processAsset (files : List SFile) (asset : FsPath)
    (pick : Nat → Fin 62) :
    Except (List Char) (List SFile × List Ev) :=
  match search_for_asset_uses files asset with
  | .error e => .error e
  | .ok uses =>
    let newAsset := rename_asset pick asset
    let files1 := uses.foldl
      (fun fs u => replace_asset_uses fs u asset newAsset) files
    let files2 := files1.map (fun f =>
      if f.path = asset then ⟨newAsset, f.content⟩ else f)
    .ok (files2, uses.map Ev.rewrite ++ [Ev.rename asset newAsset])

/-- `extract_zip` (main.py lines 66-90) over an abstract file system: the
component returns the sibling directory named after the archive's stem;
when that directory already exists nothing is written, otherwise the
directory and the archive's contents are created.  The third component
records whether an extraction (a filesystem write) was performed. -/
def extract_zip (contents : List (List Char)) (fs : List (List Char))
    (archive : FsPath) : List Char × List (List Char) × Bool :=
  let target := archive.dir ++ '/' :: archive.stem
  if target ∈ fs then (target, fs, false)
  else (target, target :: contents ++ fs, true)

/-- A Python logging level argument: an int or a level-name string. -/
inductive PyLevel
  | int (n : Nat)
  | str (s : List Char)
deriving DecidableEq

/-- Python truthiness of a level value: `0` and `''` are falsy. -/
def levelTruthy : PyLevel → Bool
  | .int n => n ≠ 0
  | .str s => !s.isEmpty

/-- The standard library's `logging._nameToLevel` table. -/
def nameToLevel (s : List Char) : Option Nat :=
  if s = "CRITICAL".toList then some 50
  else if s = "FATAL".toList then some 50
  else if s = "ERROR".toList then some 40
  else if s = "WARN".toList then some 30
  else if s = "WARNING".toList then some 30
  else if s = "INFO".toList then some 20
  else if s = "DEBUG".toList then some 10
  else if s = "NOTSET".toList then some 0
  else none

/-- The message of the `ValueError` that `logging._checkLevel` raises
for an unknown level name. -/
def unknownLevelMsg (s : List Char) : List Char :=
  "Unknown level: ".toList ++ s

/-- The standard library's `logging._checkLevel`: an int is taken as is;
a string must be a recognized level name, otherwise `ValueError`. -/
def checkLevel : PyLevel → Except (List Char) Nat
  | .int n => .ok n
  | .str s =>
    match nameToLevel s with
    | some n => .ok n
    | none => .error (unknownLevelMsg s)

/-- `__default_level__ = os.environ.get("LOGGING_LEVEL", INFO)` in
`construct_cache_fixer/logging/__init__.py` line 19 (the package shadows
the sibling `logging.py` module). -/
def defaultLevel (env : Option (List Char)) : PyLevel :=
  match env with
  | some s => .str s
  | none => .int 20

/-- The level a logger built by `getLogger()` ends up with:
`getLogger` substitutes the default level for a missing one,
`ColoredLogger.__init__` substitutes INFO for a falsy one, and
`Logger.__init__` validates via `_checkLevel`. -/
def getLoggerLevel (env : Option (List Char)) : Except (List Char) Nat :=
  let lvl := defaultLevel env
  let lvl := if levelTruthy lvl then lvl else .int 20
  checkLevel lvl

/-- The effective level of the module logger of main.py lines 21-22:
`_logger = logging.getLogger()` followed by
`_logger.setLevel(logging.INFO)`. -/
def mainLoggerLevel (env : Option (List Char)) : Except (List Char) Nat :=
  match getLoggerLevel env with
  | .error e => .error e
  | .ok _ => .ok 20

/-- Whether a logger with threshold `lvl` emits a record of severity
`sev` (`Logger.isEnabledFor`). -/
def emits (lvl sev : Nat) : Bool := decide (lvl ≤ sev)

/-- A concrete random oracle always drawing the first alphabet letter. -/
def pick0 : Nat → Fin 62 := fun _ => ⟨0, by decide⟩

/-- The reference name of the asset `x.png` of the round-trip scenario. -/
def xpng : List Char := ['x', '.', 'p', 'n', 'g']

def barL : List Char := ['b', 'a', 'r']

def foobarL : List Char := ['f', 'o', 'o', '_', 'b', 'a', 'r']

/-- The new reference name produced for `x.png` by a suffix `suf`:
`x_{suf}.png`. -/
def mkNew (suf : List Char) : List Char :=
  'x' :: '_' :: (suf ++ ['.', 'p', 'n', 'g'])

/-- Every occurrence of `name` in `t` starts at a positive index and is
immediately preceded by a word character - hence none is standalone. -/
def SafeOcc (name t : List Char) : Prop :=
  ∀ i, occurAt name t i →
    1 ≤ i ∧ ∃ c, t.get? (i - 1) = some c ∧ isWordChar c = true

/-! ### Generic list lemmas -/

lemma getq_drop {α : Type _} (l : List α) (i k : Nat) :
    (l.drop i).get? k = l.get? (i + k) := by
  simp [List.get?_eq_getElem?, List.getElem?_drop]

lemma getq_append_left {α : Type _} {u v : List α} {k : Nat}
    (h : k < u.length) : (u ++ v).get? k = u.get? k := by
  simp [List.get?_eq_getElem?, List.getElem?_append, h]

lemma getq_append_right {α : Type _} {u v : List α} {k : Nat}
    (h : u.length ≤ k) : (u ++ v).get? k = v.get? (k - u.length) := by
  simp [List.get?_eq_getElem?, List.getElem?_append_right h]

lemma drop_append_ge {α : Type _} (u v : List α) {i : Nat}
    (h : u.length ≤ i) : (u ++ v).drop i = v.drop (i - u.length) := by
  obtain ⟨k, rfl⟩ : ∃ k, i = u.length + k := ⟨i - u.length, by omega⟩
  rw [← List.drop_drop, List.drop_left, Nat.add_sub_cancel_left]

lemma isPrefixOf_iff_ex {p l : List Char} :
    p.isPrefixOf l = true ↔ ∃ r, l = p ++ r := by
  rw [ List.isPrefixOf_iff_prefix]
  constructor
  · rintro ⟨r, hr⟩; exact ⟨r, hr.symm⟩
  · rintro ⟨r, hr⟩; exact ⟨r, hr.symm⟩

/-! ### Occurrence and substring lemmas -/

lemma occ_get {p t : List Char} {i : Nat} (h : occurAt p t i) :
    ∀ {k : Nat}, k < p.length → t.get? (i + k) = p.get? k := by
  intro k hk
  obtain ⟨r, hr⟩ := h
  have h2 := getq_drop t i k
  rw [hr, getq_append_left hk] at h2
  exact h2.symm

lemma occ_sub {p t : List Char} {i : Nat} (h : occurAt p t i) : subOf p t := by
  obtain ⟨r, hr⟩ := h
  exact ⟨t.take i, r, by rw [List.append_assoc, ← hr, List.take_append_drop]⟩

lemma sub_iff_containsSub {p t : List Char} :
    containsSub p t = true ↔ subOf p t := by
  induction t with
  | nil =>
    simp only [containsSub, List.isEmpty_iff, subOf]
    constructor
    · rintro rfl; exact ⟨[], [], rfl⟩
    · rintro ⟨u, v, h⟩
      have hl := congrArg List.length h
      simp at hl
      exact List.length_eq_zero.mp (by omega)
  | cons c rest ih =>
    simp only [containsSub, Bool.or_eq_true, ih]
    constructor
    · rintro (hp | hsub)
      · rw [isPrefixOf_iff_ex] at hp
        obtain ⟨r, hr⟩ := hp
        exact ⟨[], r, by simpa using hr⟩
      · obtain ⟨u, v, hv⟩ := hsub
        exact ⟨c :: u, v, by simp [hv]⟩
    · rintro ⟨u, v, hv⟩
      cases u with
      | nil =>
        left
        rw [isPrefixOf_iff_ex]
        exact ⟨v, by simpa using hv⟩
      | cons a u' =>
        right
        rw [List.cons_append, List.cons_append] at hv
        injection hv with h1 h2
        exact ⟨u', v, h2⟩

lemma sub_trans {p q t : List Char} (h1 : subOf p q) (h2 : subOf q t) :
    subOf p t := by
  obtain ⟨u1, v1, rfl⟩ := h1
  obtain ⟨u2, v2, rfl⟩ := h2
  exact ⟨u2 ++ u1, v1 ++ v2, by simp⟩

/-! ### Characterization of the whole-word match rule -/

lemma tailMatch_iff {name rest : List Char} :
    tailMatch name rest = true ↔
      (∃ r, rest = name ++ r) ∧
        ∃ d, rest.get? name.length = some d ∧ isWordChar d = false := by
  unfold tailMatch
  rw [Bool.and_eq_true, isPrefixOf_iff_ex]
  constructor
  · rintro ⟨hp, h2⟩
    refine ⟨hp, ?_⟩
    cases hd : rest.drop name.length with
    | nil => rw [hd] at h2; simp at h2
    | cons d tl =>
      rw [hd] at h2
      simp only [Bool.not_eq_true'] at h2
      refine ⟨d, ?_, h2⟩
      have h3 := getq_drop rest name.length 0
      rw [hd] at h3
      simpa using h3.symm
  · rintro ⟨hp, d, hd, hw⟩
    refine ⟨hp, ?_⟩
    cases hdrop : rest.drop name.length with
    | nil =>
      exfalso
      have hlen : rest.length ≤ name.length := by
        have hl := congrArg List.length hdrop
        simp [List.length_drop] at hl
        omega
      rw [List.get?_eq_none.mpr hlen] at hd
      exact Option.noConfusion hd
    | cons e tl =>
      have h3 := getq_drop rest name.length 0
      rw [hdrop] at h3
      simp only [List.get?, Nat.add_zero] at h3
      rw [hd] at h3
      injection h3 with he
      simp [he, hw]

lemma wwMatch_iff {name : List Char} : ∀ {line : List Char},
    wwMatch name line = true ↔ ∃ i, matchSiteAt name line i := by
  intro line
  induction line with
  | nil =>
    simp [wwMatch, matchSiteAt]
  | cons c rest ih =>
    rw [wwMatch, Bool.or_eq_true, Bool.and_eq_true, ih]
    constructor
    · rintro (⟨hnw, ht⟩ | ⟨j, hj1, ⟨a, ha, hwa⟩, ⟨r, hr⟩, b, hb, hwb⟩)
      · rw [tailMatch_iff] at ht
        obtain ⟨⟨r, hr⟩, d, hd, hwd⟩ := ht
        refine ⟨1, Nat.le_refl 1, ⟨c, rfl, by simpa using hnw⟩,
          ⟨r, by simpa using hr⟩, ⟨d, ?_, hwd⟩⟩
        have he : 1 + name.length = name.length + 1 := by omega
        rw [he]
        simpa using hd
      · refine ⟨j + 1, by omega, ⟨a, ?_, hwa⟩, ⟨r, by simpa using hr⟩,
          ⟨b, ?_, hwb⟩⟩
        · have he : j + 1 - 1 = (j - 1) + 1 := by omega
          rw [he]
          simpa using ha
        · have he : j + 1 + name.length = (j + name.length) + 1 := by omega
          rw [he]
          simpa using hb
    · rintro ⟨i, hi1, ⟨a, ha, hwa⟩, ⟨r, hr⟩, b, hb, hwb⟩
      obtain ⟨k, rfl⟩ : ∃ k, i = k + 1 := ⟨i - 1, by omega⟩
      cases k with
      | zero =>
        left
        simp only [Nat.add_sub_cancel] at ha
        have hac : a = c := by simpa using ha.symm
        refine ⟨by simp [← hac, hwa], ?_⟩
        rw [tailMatch_iff]
        refine ⟨⟨r, by simpa using hr⟩, ⟨b, ?_, hwb⟩⟩
        have he : 0 + 1 + name.length = name.length + 1 := by omega
        rw [he] at hb
        simpa using hb
      | succ m =>
        right
        refine ⟨m + 1, by omega, ⟨a, ?_, hwa⟩, ⟨r, by simpa using hr⟩,
          ⟨b, ?_, hwb⟩⟩
        · have he : m + 1 + 1 - 1 = m + 1 := by omega
          rw [he] at ha
          simpa using ha
        · have he : m + 1 + 1 + name.length = (m + 1 + name.length) + 1 := by
            omega
          rw [he] at hb
          simpa using hb

/-! ### Equations and basic properties of pyReplace -/

lemma isEmpty_false_of_ne {l : List Char} (h : l ≠ []) :
    l.isEmpty = false := by
  cases l with
  | nil => exact absurd rfl h
  | cons a t => rfl

lemma pyReplaceAux_skip (old new : List Char) (k : Nat) (s : List Char) :
    pyReplaceAux old new k s = pyReplaceAux old new 0 (s.drop k) := by
  induction k generalizing s with
  | zero => rw [List.drop_zero]
  | succ n ih =>
    cases s with
    | nil => simp [pyReplaceAux]
    | cons c rest =>
      rw [List.drop_succ_cons, ← ih rest]
      simp [pyReplaceAux]

lemma pyReplace_eq_aux {old new s : List Char} (h : old ≠ []) :
    pyReplace old new s = pyReplaceAux old new 0 s := by
  simp [pyReplace, isEmpty_false_of_ne h]

lemma pyReplace_nil {old new : List Char} (h : old ≠ []) :
    pyReplace old new [] = [] := by
  rw [pyReplace_eq_aux h]
  simp [pyReplaceAux]

lemma pyReplace_pos {old new : List Char} {c : Char} {rest : List Char}
    (h : old ≠ []) (hp : old.isPrefixOf (c :: rest) = true) :
    pyReplace old new (c :: rest) =
      new ++ pyReplace old new (rest.drop (old.length - 1)) := by
  rw [pyReplace_eq_aux h, pyReplace_eq_aux h]
  rw [show pyReplaceAux old new 0 (c :: rest) =
      new ++ pyReplaceAux old new (old.length - 1) rest from by
    simp [pyReplaceAux, h, hp]]
  rw [pyReplaceAux_skip]

lemma pyReplace_neg {old new : List Char} {c : Char} {rest : List Char}
    (h : old ≠ []) (hp : old.isPrefixOf (c :: rest) = false) :
    pyReplace old new (c :: rest) = c :: pyReplace old new rest := by
  rw [pyReplace_eq_aux h, pyReplace_eq_aux h]
  simp [pyReplaceAux, hp]

lemma containsSub_nil_pat (s : List Char) : containsSub [] s = true := by
  cases s with
  | nil => rfl
  | cons c r => rfl

lemma pyReplace_id_aux {old new : List Char} (hne : old ≠ []) :
    ∀ {s : List Char}, containsSub old s = false → pyReplace old new s = s := by
  intro s
  induction s with
  | nil => intro _; exact pyReplace_nil hne
  | cons c rest ih =>
    intro h
    have h1 : old.isPrefixOf (c :: rest) = false := by
      cases hh : old.isPrefixOf (c :: rest) with
      | false => rfl
      | true => rw [containsSub, hh] at h; simp at h
    have h2 : containsSub old rest = false := by
      rw [containsSub, h1] at h
      simpa using h
    rw [pyReplace_neg hne h1, ih h2]

lemma pyReplace_id_of_not_sub {old new s : List Char}
    (h : containsSub old s = false) : pyReplace old new s = s := by
  have hne : old ≠ [] := by
    intro he
    rw [he, containsSub_nil_pat] at h
    exact Bool.noConfusion h
  exact pyReplace_id_aux hne h

lemma pyReplace_new_sub {old new : List Char} : ∀ {s : List Char},
    containsSub old s = true → subOf new (pyReplace old new s) := by
  intro s
  induction s with
  | nil =>
    intro h
    have ho : old = [] := by simpa [containsSub, List.isEmpty_iff] using h
    subst ho
    exact ⟨[], [], by simp [pyReplace, interEmpty]⟩
  | cons c rest ih =>
    intro h
    by_cases hne : old = []
    · subst hne
      exact ⟨[], c :: interEmpty new rest, by simp [pyReplace, interEmpty]⟩
    · cases hp : old.isPrefixOf (c :: rest) with
      | true =>
        rw [pyReplace_pos hne hp]
        exact ⟨[], _, rfl⟩
      | false =>
        rw [pyReplace_neg hne hp]
        have h2 : containsSub old rest = true := by
          rw [containsSub, hp] at h
          simpa using h
        obtain ⟨u, v, hv⟩ := ih h2
        exact ⟨c :: u, v, by simp [hv]⟩

/-! ### Scanner-level lemmas -/

lemma wwMatch_sub {name line : List Char} (h : wwMatch name line = true) :
    subOf name line := by
  rw [wwMatch_iff] at h
  obtain ⟨i, _, _, hocc, _⟩ := h
  exact occ_sub hocc

lemma wwMatch_false_of_not_sub {name line : List Char}
    (h : containsSub name line = false) : wwMatch name line = false := by
  cases hw : wwMatch name line with
  | false => rfl
  | true =>
    exfalso
    have h2 : containsSub name line = true :=
      sub_iff_containsSub.mpr (wwMatch_sub hw)
    rw [h2] at h
    exact Bool.noConfusion h

lemma splitLinesAux_flatten : ∀ (s acc : List Char),
    (splitLinesAux s acc).flatten = acc.reverse ++ s
  | [], acc => by
    cases hacc : acc.isEmpty with
    | false => simp [splitLinesAux, hacc]
    | true =>
      have ha : acc = [] := List.isEmpty_iff.mp hacc
      subst ha
      simp [splitLinesAux]
  | c :: rest, acc => by
    by_cases hc : c = '\n'
    · subst hc
      simp [splitLinesAux, splitLinesAux_flatten rest []]
    · simp [splitLinesAux, hc, splitLinesAux_flatten rest (c :: acc)]

lemma mem_splitLines_sub {s l : List Char} (h : l ∈ splitLines s) :
    subOf l s := by
  have h2 : l <:+: (splitLines s).flatten := List.infix_of_mem_flatten h
  have h3 := splitLinesAux_flatten s []
  simp only [List.reverse_nil, List.nil_append] at h3
  rw [splitLines, h3] at h2
  obtain ⟨u, v, huv⟩ := h2
  exact ⟨u, v, huv.symm⟩

lemma scanContent_sub {name s : List Char} (h : scanContent name s = true) :
    subOf name s := by
  rw [scanContent, List.any_eq_true] at h
  obtain ⟨l, hl, hw⟩ := h
  exact sub_trans (wwMatch_sub hw) (mem_splitLines_sub hl)

/-! ### Occurrences of the old name after the round-trip replacement -/

lemma pre_of_longer : ∀ {p r w v : List Char}, p ++ r = w ++ v →
    p.length ≤ w.length → ∃ r', w = p ++ r' := by
  intro p
  induction p with
  | nil => intro r w v _ _; exact ⟨w, rfl⟩
  | cons a p' ih =>
    intro r w v h hl
    cases w with
    | nil => simp at hl
    | cons b w' =>
      rw [List.cons_append, List.cons_append] at h
      injection h with h1 h2
      obtain ⟨r', hr'⟩ := ih h2 (by simpa using hl)
      exact ⟨r', by rw [hr', ← h1]; exact rfl⟩

lemma occ_within {p u v : List Char} {i : Nat} (h : occurAt p (u ++ v) i)
    (hfit : i + p.length ≤ u.length) : occurAt p u i := by
  obtain ⟨r, hr⟩ := h
  rw [List.drop_append_of_le_length (by omega)] at hr
  obtain ⟨r', hr'⟩ := pre_of_longer hr.symm (by simp [List.length_drop]; omega)
  exact ⟨r', hr'⟩

lemma occ_append_right {p u v : List Char} {i : Nat}
    (h : occurAt p (u ++ v) i) (hge : u.length ≤ i) :
    occurAt p v (i - u.length) := by
  obtain ⟨r, hr⟩ := h
  rw [drop_append_ge u v hge] at hr
  exact ⟨r, hr⟩

lemma mkNew_length (suf : List Char) :
    (mkNew suf).length = suf.length + 6 := by
  simp only [mkNew, List.length_cons, List.length_append, List.length_nil]

lemma xpng_length : xpng.length = 5 := rfl

lemma mkNew_occ {suf : List Char} (hsuf : ∀ c ∈ suf, isWordChar c = true)
    {i : Nat} (hocc : occurAt xpng (mkNew suf) i)
    (hfit : i + 5 ≤ suf.length + 6) :
    i = suf.length + 1 ∧
      ∃ c, (mkNew suf).get? (i - 1) = some c ∧ isWordChar c = true := by
  have hx : (mkNew suf).get? i = some 'x' := by
    have h0 := occ_get hocc (show 0 < xpng.length by decide)
    simpa using h0
  have hdot : (mkNew suf).get? (i + 1) = some '.' := by
    have h1 := occ_get hocc (show 1 < xpng.length by decide)
    simpa [xpng] using h1
  have hieq : i = suf.length + 1 := by
    rcases i with _ | j
    · exfalso
      have h2 : (some '_' : Option Char) = some '.' := hdot
      simp at h2
    · have h3 : (suf ++ ['.', 'p', 'n', 'g']).get? j = some '.' := hdot
      by_cases hj : j < suf.length
      · exfalso
        rw [getq_append_left hj] at h3
        have h5 := hsuf '.' (List.get?_mem h3)
        simp [isWordChar] at h5
      · have hj2 : suf.length ≤ j := Nat.le_of_not_lt hj
        omega
  subst hieq
  refine ⟨rfl, ?_⟩
  rcases suf with _ | ⟨a, suf'⟩
  · exfalso
    have h2 : (some '_' : Option Char) = some 'x' := hx
    simp at h2
  · rcases suf' with _ | ⟨b, suf''⟩
    · exact ⟨'_', rfl, by decide⟩
    · -- the predecessor index is suf.length = suf''.length + 2
      have hlt : suf''.length < (a :: b :: suf'').length := by
        simp only [List.length_cons]
        omega
      have hg : (a :: b :: suf'').get? suf''.length =
          some ((a :: b :: suf'').get ⟨suf''.length, hlt⟩) :=
        List.get?_eq_get hlt
      refine ⟨(a :: b :: suf'').get ⟨suf''.length, hlt⟩, ?_, ?_⟩
      · -- (mkNew suf).get? (suf.length + 1 - 1) with suf = a::b::suf''
        have he : (a :: b :: suf'').length + 1 - 1 = suf''.length + 2 := by
          simp only [List.length_cons]
          omega
        rw [he]
        have h4 : (mkNew (a :: b :: suf'')).get? (suf''.length + 2) =
            ((a :: b :: suf'') ++ ['.', 'p', 'n', 'g']).get? suf''.length := rfl
        rw [h4, getq_append_left (by simp only [List.length_cons]; omega)]
        exact hg
      · exact hsuf _ (List.get?_mem hg)

lemma safe_nil_occ : SafeOcc xpng [] := by
  intro i hocc
  obtain ⟨r, hr⟩ := hocc
  have hl := congrArg List.length hr
  simp [xpng] at hl

lemma safe_append_mkNew {suf : List Char}
    (hsuf : ∀ c ∈ suf, isWordChar c = true) {T : List Char}
    (hT : SafeOcc xpng T) : SafeOcc xpng (mkNew suf ++ T) := by
  intro i hocc
  have hN := mkNew_length suf
  by_cases h1 : i + 5 ≤ suf.length + 6
  · have hocc2 : occurAt xpng (mkNew suf) i :=
      occ_within hocc (by rw [hN, xpng_length]; omega)
    obtain ⟨hieq, c, hc, hw⟩ := mkNew_occ hsuf hocc2 h1
    refine ⟨by omega, c, ?_, hw⟩
    rw [getq_append_left (by rw [hN]; omega)]
    exact hc
  · by_cases h2 : i < suf.length + 6
    · exfalso
      have hx : (mkNew suf ++ T).get? i = some 'x' := by
        have h0 := occ_get hocc (show 0 < xpng.length by decide)
        simpa using h0
      rw [getq_append_left (by rw [hN]; omega)] at hx
      obtain ⟨k, rfl⟩ : ∃ k, i = k + 2 := ⟨i - 2, by omega⟩
      have hx2 : (suf ++ ['.', 'p', 'n', 'g']).get? k = some 'x' := hx
      rw [getq_append_right (by omega)] at hx2
      have hm : k - suf.length < 4 := by omega
      rcases hk : k - suf.length with _ | _ | _ | _ | m
      · rw [hk] at hx2; simp at hx2
      · rw [hk] at hx2; simp at hx2
      · rw [hk] at hx2; simp at hx2
      · rw [hk] at hx2; simp at hx2
      · omega
    · have hocc2 : occurAt xpng T (i - (suf.length + 6)) := by
        have h3 := occ_append_right hocc (by rw [hN]; omega)
        rwa [hN] at h3
      obtain ⟨hge1, c, hc, hw⟩ := hT _ hocc2
      refine ⟨by omega, c, ?_, hw⟩
      rw [getq_append_right (by rw [hN]; omega), hN]
      have he : i - 1 - (suf.length + 6) = i - (suf.length + 6) - 1 := by
        omega
      rw [he]
      exact hc

lemma pull_tail {w : List Char} :
    ∀ (pat s : List Char), (∃ q, q ++ pat = ['.', 'p', 'n', 'g']) →
      (∃ r, pyReplace xpng ('x' :: w) s = pat ++ r) →
      ∃ r, s = pat ++ r := by
  intro pat s
  induction s generalizing pat with
  | nil =>
    intro _ hp
    rw [pyReplace_nil (by decide)] at hp
    obtain ⟨r, hr⟩ := hp
    have hpat : pat = [] := by
      have hl := congrArg List.length hr
      simp at hl
      exact List.length_eq_zero.mp (by omega)
    exact ⟨[], by simp [hpat]⟩
  | cons c rest ih =>
    intro hq hp
    cases hpre : xpng.isPrefixOf (c :: rest) with
    | true =>
      rw [pyReplace_pos (by decide) hpre] at hp
      obtain ⟨r, hr⟩ := hp
      cases pat with
      | nil => exact ⟨c :: rest, rfl⟩
      | cons p0 pat' =>
        exfalso
        rw [List.cons_append, List.cons_append] at hr
        injection hr with h1 _
        obtain ⟨q, hqe⟩ := hq
        have hm : p0 ∈ ['.', 'p', 'n', 'g'] := by
          rw [← hqe]
          exact List.mem_append_right q (List.mem_cons_self p0 pat')
        rw [← h1] at hm
        simp at hm
    | false =>
      rw [pyReplace_neg (by decide) hpre] at hp
      obtain ⟨r, hr⟩ := hp
      cases pat with
      | nil => exact ⟨c :: rest, rfl⟩
      | cons p0 pat' =>
        rw [List.cons_append] at hr
        injection hr with h1 h2
        obtain ⟨q, hqe⟩ := hq
        have hq' : ∃ q', q' ++ pat' = ['.', 'p', 'n', 'g'] :=
          ⟨q ++ [p0], by rw [List.append_assoc]; simpa using hqe⟩
        obtain ⟨r', hr'⟩ := ih pat' hq' ⟨r, h2⟩
        exact ⟨r', by rw [h1, hr', List.cons_append]⟩

lemma pyReplace_safe {suf : List Char}
    (hsuf : ∀ c ∈ suf, isWordChar c = true) :
    ∀ (n : Nat) (s : List Char), s.length ≤ n →
      SafeOcc xpng (pyReplace xpng (mkNew suf) s) := by
  intro n
  induction n with
  | zero =>
    intro s hs
    have hsnil : s = [] := List.length_eq_zero.mp (by omega)
    subst hsnil
    rw [pyReplace_nil (by decide)]
    exact safe_nil_occ
  | succ n ih =>
    intro s hs
    cases s with
    | nil =>
      rw [pyReplace_nil (by decide)]
      exact safe_nil_occ
    | cons c rest =>
      cases hpre : xpng.isPrefixOf (c :: rest) with
      | true =>
        rw [pyReplace_pos (by decide) hpre]
        refine safe_append_mkNew hsuf (ih (rest.drop (xpng.length - 1)) ?_)
        simp only [List.length_drop]
        have hsl : rest.length + 1 ≤ n + 1 := by simpa using hs
        omega
      | false =>
        rw [pyReplace_neg (by decide) hpre]
        have hR := ih rest (by
          have hsl : rest.length + 1 ≤ n + 1 := by simpa using hs
          omega)
        intro i hocc
        cases i with
        | zero =>
          exfalso
          obtain ⟨r, hr⟩ := hocc
          simp only [List.drop_zero] at hr
          rw [show xpng ++ r = 'x' :: (['.', 'p', 'n', 'g'] ++ r) from rfl]
            at hr
          injection hr with h1 h2
          obtain ⟨r', hr'⟩ :=
            pull_tail ['.', 'p', 'n', 'g'] rest ⟨[], rfl⟩ ⟨r, h2⟩
          have hcon : xpng.isPrefixOf (c :: rest) = true := by
            rw [isPrefixOf_iff_ex]
            exact ⟨r', by rw [h1, hr']; rfl⟩
          rw [hcon] at hpre
          exact Bool.noConfusion hpre
        | succ j =>
          have hocc2 :
              occurAt xpng (pyReplace xpng (mkNew suf) rest) j := by
            obtain ⟨r, hr⟩ := hocc
            exact ⟨r, by simpa using hr⟩
          obtain ⟨hj1, d, hd, hw⟩ := hR j hocc2
          refine ⟨by omega, d, ?_, hw⟩
          obtain ⟨m, rfl⟩ : ∃ m, j = m + 1 := ⟨j - 1, by omega⟩
          simpa [List.get?] using hd

lemma pyReplace_no_standalone {suf s : List Char}
    (hsuf : ∀ c ∈ suf, isWordChar c = true) :
    ¬ standaloneOccur xpng (pyReplace xpng (mkNew suf) s) := by
  rintro ⟨i, hocc, hleft, _⟩
  obtain ⟨h1, c, hc, hw⟩ :=
    pyReplace_safe hsuf s.length s (Nat.le_refl _) i hocc
  rcases hleft with h0 | ⟨c', hc', hw'⟩
  · omega
  · rw [hc] at hc'
    injection hc' with he
    rw [← he] at hw'
    rw [hw] at hw'
    exact Bool.noConfusion hw'

/-! ### Model-level lemmas: scanner, random suffix, messages -/

lemma search_error_of_no_match {files : List SFile} {asset : FsPath}
    (h : ∀ f ∈ sourceFiles files,
      fileMatches (searchAssetName asset) f = false) :
    search_for_asset_uses files asset = .error (notFoundMsg asset) := by
  have hfe : (sourceFiles files).filter
      (fun f => fileMatches (searchAssetName asset) f) = [] :=
    List.filter_eq_nil_iff.mpr (by intro a ha; simp [h a ha])
  simp [search_for_asset_uses, hfe]

lemma notFoundMsg_sub (asset : FsPath) :
    containsSub (pathStr asset) (notFoundMsg asset) = true := by
  refine sub_iff_containsSub.mpr
    ⟨"The asset ".toList ++ [quoteC],
      quoteC :: " was not found in the source code.".toList, ?_⟩
  simp [notFoundMsg, List.append_assoc]

lemma replaceAssetName_ne {a : FsPath} (h : a.stem ≠ []) :
    replaceAssetName a ≠ [] := by
  rw [replaceAssetName]
  by_cases hc : a.suffix = '.' :: webmExt
  · simp [hc, h]
  · simp [hc, FsPath.name]

lemma getD_mem : ∀ (l : List Char) (v : Nat) (d : Char),
    v < l.length → l.getD v d ∈ l := by
  intro l
  induction l with
  | nil => intro v d h; simp at h
  | cons a t ih =>
    intro v d h
    cases v with
    | zero => simp [List.getD]
    | succ m =>
      simp only [List.getD_cons_succ]
      exact List.mem_cons_of_mem a (ih m d (by simpa using h))

lemma alphabet_length : alphabet.length = 62 := rfl

lemma gen_length (pick : Nat → Fin 62) (k : Nat) :
    (generate_random_string pick k).length = k := by
  simp [generate_random_string]

lemma gen_mem {pick : Nat → Fin 62} {k : Nat} {c : Char}
    (h : c ∈ generate_random_string pick k) : c ∈ alphabet := by
  rw [generate_random_string] at h
  simp only [List.mem_map] at h
  obtain ⟨i, _, hc⟩ := h
  rw [← hc]
  exact getD_mem _ _ _ (by rw [alphabet_length]; exact (pick i).isLt)

lemma alphabet_alnum : ∀ c ∈ alphabet, c.isAlphanum = true := by decide

lemma gen_word {pick : Nat → Fin 62} {k : Nat} :
    ∀ c ∈ generate_random_string pick k, isWordChar c = true := by
  intro c hc
  have ha := alphabet_alnum c (gen_mem hc)
  simp [isWordChar, ha]

/-! ### Claims -/

/-- C1 (amended): the whole-word match rule of `search_for_asset_uses`
matches a source line exactly when some occurrence of the reference name
has a non-word character immediately before it and a non-word character
immediately after it.  In particular it never matches the name as a
substring of a longer identifier and it does match adjacent to
punctuation or to a line's newline terminator, but an occurrence at the
very start of a line (with no preceding character) is not matched. -/
theorem claim1_whole_word_rule (name line : List Char) :
    wwMatch name line = true ↔ ∃ i, matchSiteAt name line i :=
  wwMatch_iff

/-- C1 counterexample: the line `x.png\n` holds the reference name
`x.png` at a line boundary (line start, followed by the newline), yet
the scanner's rule does not match the line, contradicting the claim that
occurrences at line boundaries are matched. -/
theorem claim1_counterexample :
    occurAt xpng ['x', '.', 'p', 'n', 'g', '\n'] 0 ∧
      wwMatch xpng ['x', '.', 'p', 'n', 'g', '\n'] = false ∧
      scanContent xpng ['x', '.', 'p', 'n', 'g', '\n'] = false :=
  ⟨⟨['\n'], rfl⟩, rfl, rfl⟩

/-- C2 (amended): the occurrence of `bar` lying inside an occurrence of
`foo_bar` is never a match site of the whole-word scan for `bar`,
because the preceding underscore is a word character; and whenever the
occurrence of `foo_bar` itself is a match site (bounded on both sides by
non-word characters), the whole-word scan for `foo_bar` reports a
match. -/
theorem claim2_partial_word (line : List Char) (i : Nat)
    (hocc : occurAt foobarL line i) :
    (¬ matchSiteAt barL line (i + 4)) ∧
      (matchSiteAt foobarL line i → wwMatch foobarL line = true) := by
  constructor
  · rintro ⟨_, ⟨a, ha, hwa⟩, _, _⟩
    have h3 : line.get? (i + 3) = some '_' :=
      (occ_get hocc (show 3 < foobarL.length by decide)).trans rfl
    rw [show i + 4 - 1 = i + 3 from by omega, h3] at ha
    injection ha with he
    rw [← he] at hwa
    exact absurd hwa (by decide)
  · intro hsite
    rw [wwMatch_iff]
    exact ⟨i, hsite⟩

/-- C2 counterexample: the content ` bar foo_bar\n` contains the literal
substring `foo_bar`, yet the whole-word scan for `bar` does report a
match on it (at the standalone `bar`), contradicting the claim that no
match is reported on any content containing `foo_bar`. -/
theorem claim2_counterexample :
    containsSub foobarL
        [' ', 'b', 'a', 'r', ' ', 'f', 'o', 'o', '_', 'b', 'a', 'r', '\n']
      = true ∧
    scanContent barL
        [' ', 'b', 'a', 'r', ' ', 'f', 'o', 'o', '_', 'b', 'a', 'r', '\n']
      = true :=
  ⟨rfl, rfl⟩

/-- C2 witness: the amended theorem applied at the concrete line
` foo_bar;` with the occurrence of `foo_bar` at index 1. -/
theorem claim2_witness :
    occurAt foobarL [' ', 'f', 'o', 'o', '_', 'b', 'a', 'r', ';'] 1 ∧
      ((¬ matchSiteAt barL [' ', 'f', 'o', 'o', '_', 'b', 'a', 'r', ';']
          (1 + 4)) ∧
        (matchSiteAt foobarL [' ', 'f', 'o', 'o', '_', 'b', 'a', 'r', ';'] 1 →
          wwMatch foobarL [' ', 'f', 'o', 'o', '_', 'b', 'a', 'r', ';']
            = true)) :=
  ⟨⟨[';'], rfl⟩,
    claim2_partial_word [' ', 'f', 'o', 'o', '_', 'b', 'a', 'r', ';'] 1
      ⟨[';'], rfl⟩⟩

/-- C3: the scanner and the rewriter compute the same reference name;
that name is the stem alone when the extension is `webm`, and the full
filename (stem, dot, extension) for every other extension of the
allow-list. -/
theorem claim3_reference_name (a : FsPath) :
    searchAssetName a = replaceAssetName a ∧
      (a.ext = webmExt → searchAssetName a = a.stem) ∧
      (a.ext ∈ allowedExts → a.ext ≠ webmExt →
        searchAssetName a = a.stem ++ '.' :: a.ext) := by
  refine ⟨rfl, ?_, ?_⟩
  · intro h
    have hc : a.suffix = '.' :: webmExt := by rw [FsPath.suffix, h]
    rw [searchAssetName, if_pos hc]
  · intro _ h
    have hc : ¬ a.suffix = '.' :: webmExt := by
      rw [FsPath.suffix]
      intro hcc
      injection hcc with _ h2
      exact h h2
    rw [searchAssetName, if_neg hc, FsPath.name]

/-- C3 witness: the theorem applied to the asset `g.png` discharges the
allow-list membership and the non-webm hypothesis. -/
theorem claim3_witness :
    searchAssetName ⟨[], ['g'], pngE⟩ = replaceAssetName ⟨[], ['g'], pngE⟩ ∧
      searchAssetName ⟨[], ['g'], pngE⟩ = ['g'] ++ '.' :: pngE :=
  ⟨(claim3_reference_name ⟨[], ['g'], pngE⟩).1,
    (claim3_reference_name ⟨[], ['g'], pngE⟩).2.2 (by decide) (by decide)⟩

/-- C8: running the archive-expansion step twice on the same archive
extracts at most once: after a first call, the second call returns the
same directory path, leaves the file system exactly as the first call
left it, and performs no write. -/
theorem claim8_extract_idempotent (contents fs : List (List Char))
    (archive : FsPath) :
    (extract_zip contents (extract_zip contents fs archive).2.1 archive).1 =
        (extract_zip contents fs archive).1 ∧
      (extract_zip contents (extract_zip contents fs archive).2.1
          archive).2.1 = (extract_zip contents fs archive).2.1 ∧
      (extract_zip contents (extract_zip contents fs archive).2.1
          archive).2.2 = false := by
  by_cases h : (archive.dir ++ '/' :: archive.stem) ∈ fs
  · simp [extract_zip, h]
  · simp [extract_zip, h, List.mem_cons]

/-- C9 (amended): the `LOGGING_LEVEL` environment variable sets the
level used at logger construction - an unrecognized non-empty value is a
fatal configuration error (a `ValueError` from level validation) - but
the core then immediately resets the logger's level to INFO (main.py
line 22), so whenever construction succeeds the minimum severity of log
lines emitted by the core is INFO (20) regardless of the variable. -/
theorem claim9_log_level (env : Option (List Char)) :
    (∀ s, env = some s → s ≠ [] → nameToLevel s = none →
      mainLoggerLevel env = .error (unknownLevelMsg s)) ∧
      (∀ n, getLoggerLevel env = .ok n →
        mainLoggerLevel env = .ok 20 ∧
          ∀ sev, emits 20 sev = true ↔ 20 ≤ sev) := by
  constructor
  · rintro s rfl hs hn
    have hg : getLoggerLevel (some s) = .error (unknownLevelMsg s) := by
      simp [getLoggerLevel, defaultLevel, levelTruthy,
        isEmpty_false_of_ne hs, checkLevel, hn]
    rw [mainLoggerLevel, hg]
  · intro n hn
    rw [mainLoggerLevel, hn]
    exact ⟨rfl, fun sev => by simp [emits]⟩

/-- C9 counterexample: with `LOGGING_LEVEL=DEBUG` the variable selects
severity 10, yet the core's logger ends with level 20 (INFO) - the
variable does not select the minimum severity of the lines the core
emits. -/
theorem claim9_counterexample :
    mainLoggerLevel (some "DEBUG".toList) = .ok 20 ∧
      nameToLevel "DEBUG".toList = some 10 ∧ (10 : Nat) ≠ 20 :=
  ⟨rfl, rfl, by decide⟩

/-- C9 witness: the amended theorem applied at `LOGGING_LEVEL=BOGUS`
(construction fails) and at `LOGGING_LEVEL=DEBUG` (construction succeeds
and the effective level is 20). -/
theorem claim9_witness :
    mainLoggerLevel (some "BOGUS".toList) =
        .error (unknownLevelMsg "BOGUS".toList) ∧
      mainLoggerLevel (some "DEBUG".toList) = .ok 20 :=
  ⟨(claim9_log_level (some "BOGUS".toList)).1 "BOGUS".toList rfl
      (by decide) rfl,
    ((claim9_log_level (some "DEBUG".toList)).2 10 rfl).1⟩

/-- C10: scanning and rewriting are case-sensitive exact-string
operations: when the exact reference name does not occur in a line -
for instance when the line contains the name only in a different letter
case - the scanner does not report the line, and the rewriter leaves
content without an exact occurrence unchanged. -/
theorem claim10_case_sensitive (asset newA : FsPath) (line s : List Char)
    (hline : containsSub (searchAssetName asset) line = false)
    (hs : containsSub (replaceAssetName asset) s = false) :
    wwMatch (searchAssetName asset) line = false ∧
      pyReplace (replaceAssetName asset) (replaceAssetName newA) s = s :=
  ⟨wwMatch_false_of_not_sub hline, pyReplace_id_of_not_sub hs⟩

/-- C10 witness: the theorem applied to the asset `x.png` and the
differently-cased line ` X.PNG `, which contains the reference name only
in upper case. -/
theorem claim10_witness :
    wwMatch (searchAssetName ⟨[], ['x'], pngE⟩)
        [' ', 'X', '.', 'P', 'N', 'G', ' '] = false ∧
      pyReplace (replaceAssetName ⟨[], ['x'], pngE⟩)
        (replaceAssetName ⟨[], ['y'], pngE⟩)
        [' ', 'X', '.', 'P', 'N', 'G', ' '] =
        [' ', 'X', '.', 'P', 'N', 'G', ' '] :=
  claim10_case_sensitive ⟨[], ['x'], pngE⟩ ⟨[], ['y'], pngE⟩
    [' ', 'X', '.', 'P', 'N', 'G', ' '] [' ', 'X', '.', 'P', 'N', 'G', ' ']
    (by decide) (by decide)

/-- C4: the rewrite operation overwrites exactly the named source file
in place - every other file keeps its position, path and content - and
the written content is the original content with every occurrence of the
old reference name, found left to right, replaced as a literal substring
by the new reference name: content without an occurrence is unchanged, a
leftmost occurrence is replaced unconditionally (no word-boundary
restriction), and a non-matching head character is copied. -/
theorem claim4_rewrite (files : List SFile) (sf : FsPath)
    (oldA newA : FsPath) (hstem : oldA.stem ≠ []) :
    (∀ i f, files.get? i = some f → f.path ≠ sf →
      (replace_asset_uses files sf oldA newA).get? i = some f) ∧
      (∀ i f, files.get? i = some f → f.path = sf →
        (replace_asset_uses files sf oldA newA).get? i =
          some ⟨f.path, pyReplace (replaceAssetName oldA)
            (replaceAssetName newA) f.content⟩) ∧
      (∀ s, containsSub (replaceAssetName oldA) s = false →
        pyReplace (replaceAssetName oldA) (replaceAssetName newA) s = s) ∧
      (∀ s, (replaceAssetName oldA).isPrefixOf s = true →
        pyReplace (replaceAssetName oldA) (replaceAssetName newA) s =
          replaceAssetName newA ++
            pyReplace (replaceAssetName oldA) (replaceAssetName newA)
              (s.drop (replaceAssetName oldA).length)) ∧
      (∀ c s, (replaceAssetName oldA).isPrefixOf (c :: s) = false →
        pyReplace (replaceAssetName oldA) (replaceAssetName newA)
            (c :: s) =
          c :: pyReplace (replaceAssetName oldA) (replaceAssetName newA)
            s) := by
  have hne := replaceAssetName_ne hstem
  refine ⟨?_, ?_, ?_, ?_, ?_⟩
  · intro i f hf hp
    rw [replace_asset_uses, List.get?_eq_getElem?, List.getElem?_map,
      ← List.get?_eq_getElem?, hf]
    simp [hp]
  · intro i f hf hp
    rw [replace_asset_uses, List.get?_eq_getElem?, List.getElem?_map,
      ← List.get?_eq_getElem?, hf]
    simp [hp]
  · intro s h
    exact pyReplace_id_of_not_sub h
  · intro s hp
    cases s with
    | nil =>
      exfalso
      rw [isPrefixOf_iff_ex] at hp
      obtain ⟨r, hr⟩ := hp
      have hl := congrArg List.length hr
      simp at hl
      exact hne (List.length_eq_zero.mp (by omega))
    | cons c rest =>
      rw [pyReplace_pos hne hp]
      have hd : (c :: rest).drop (replaceAssetName oldA).length =
          rest.drop ((replaceAssetName oldA).length - 1) := by
        rcases ho : replaceAssetName oldA with _ | ⟨o, os⟩
        · exact absurd ho hne
        · simp
      rw [hd]
  · intro c s hp
    exact pyReplace_neg hne hp

/-- C4 witness: the rewrite of the single source file `a.html` for the
pair `x.png` to `y.png`, taken from the second conjunct of the theorem
at index 0. -/
theorem claim4_witness :
    (replace_asset_uses [⟨⟨[], ['a'], htmlE⟩, " x.png ".toList⟩]
        ⟨[], ['a'], htmlE⟩ ⟨[], ['x'], pngE⟩ ⟨[], ['y'], pngE⟩).get? 0 =
      some ⟨⟨[], ['a'], htmlE⟩,
        pyReplace (replaceAssetName ⟨[], ['x'], pngE⟩)
          (replaceAssetName ⟨[], ['y'], pngE⟩) " x.png ".toList⟩ :=
  (claim4_rewrite [⟨⟨[], ['a'], htmlE⟩, " x.png ".toList⟩]
      ⟨[], ['a'], htmlE⟩ ⟨[], ['x'], pngE⟩ ⟨[], ['y'], pngE⟩
      (by decide)).2.1 0 ⟨⟨[], ['a'], htmlE⟩, " x.png ".toList⟩ rfl rfl

/-- C5: when no html, js or json file contains a whole-word occurrence
of the asset's reference name, the per-asset step fails with the
NotFound error whose message contains the asset's path, and the run
aborts with no rename: the step produces an error, not a new file
system state. -/
theorem claim5_not_found (files : List SFile) (asset : FsPath)
    (pick : Nat → Fin 62)
    (h : ∀ f ∈ sourceFiles files,
      fileMatches (searchAssetName asset) f = false) :
    processAsset files asset pick = .error (notFoundMsg asset) ∧
      containsSub (pathStr asset) (notFoundMsg asset) = true := by
  refine ⟨?_, notFoundMsg_sub asset⟩
  simp only [processAsset, search_error_of_no_match h]

/-- C5 witness: an extraction containing only `a.html` with content
`hello`, scanned for the unreferenced asset `x.png`. -/
theorem claim5_witness :
    processAsset [⟨⟨[], ['a'], htmlE⟩, "hello\n".toList⟩]
        ⟨[], ['x'], pngE⟩ pick0 = .error (notFoundMsg ⟨[], ['x'], pngE⟩) ∧
      containsSub (pathStr ⟨[], ['x'], pngE⟩)
        (notFoundMsg ⟨[], ['x'], pngE⟩) = true :=
  claim5_not_found [⟨⟨[], ['a'], htmlE⟩, "hello\n".toList⟩]
    ⟨[], ['x'], pngE⟩ pick0 (by decide)

/-- C6: in every successful per-asset step the trace of side effects is
exactly one rewrite per source file found by the scanner followed by the
single rename of the asset: every rewrite event strictly precedes every
rename event, so the asset file is never renamed while a found source
file still awaits its rewrite. -/
theorem claim6_rewrites_before_rename (files : List SFile)
    (asset : FsPath) (pick : Nat → Fin 62) (st' : List SFile)
    (tr : List Ev) (h : processAsset files asset pick = .ok (st', tr)) :
    ∃ uses, search_for_asset_uses files asset = .ok uses ∧
      tr = uses.map Ev.rewrite ++
        [Ev.rename asset (rename_asset pick asset)] ∧
      ∀ i j p a b, tr.get? i = some (Ev.rewrite p) →
        tr.get? j = some (Ev.rename a b) → i < j := by
  unfold processAsset at h
  cases hs : search_for_asset_uses files asset with
  | error e =>
    rw [hs] at h
    simp at h
  | ok uses =>
    rw [hs] at h
    simp only [Except.ok.injEq, Prod.mk.injEq] at h
    obtain ⟨hst, htr⟩ := h
    subst htr
    refine ⟨uses, rfl, rfl, ?_⟩
    intro i j p a b hi hj
    have hjlen : ¬ j < (uses.map Ev.rewrite).length := by
      intro hjl
      rw [getq_append_left hjl] at hj
      rw [List.get?_eq_getElem?, List.getElem?_map] at hj
      cases hu : uses[j]? with
      | none => rw [hu] at hj; simp at hj
      | some u => rw [hu] at hj; simp at hj
    have hilen : i < (uses.map Ev.rewrite).length := by
      by_contra hge
      rw [getq_append_right (by omega)] at hi
      rcases hv : i - (uses.map Ev.rewrite).length with _ | m
      · rw [hv] at hi; simp at hi
      · rw [hv] at hi; simp at hi
    omega

/-- C6 witness: the concrete run on `a.html` containing ` x.png` with
asset `x.png`, whose trace is one rewrite followed by the rename. -/
theorem claim6_witness :
    ∃ uses, search_for_asset_uses
        [⟨⟨[], ['a'], htmlE⟩, " x.png\n".toList⟩] ⟨[], ['x'], pngE⟩ =
          .ok uses ∧
      [Ev.rewrite ⟨[], ['a'], htmlE⟩,
        Ev.rename ⟨[], ['x'], pngE⟩
          (rename_asset pick0 ⟨[], ['x'], pngE⟩)] =
        uses.map Ev.rewrite ++
          [Ev.rename ⟨[], ['x'], pngE⟩
            (rename_asset pick0 ⟨[], ['x'], pngE⟩)] ∧
      ∀ i j p a b,
        [Ev.rewrite ⟨[], ['a'], htmlE⟩,
          Ev.rename ⟨[], ['x'], pngE⟩
            (rename_asset pick0 ⟨[], ['x'], pngE⟩)].get? i =
          some (Ev.rewrite p) →
        [Ev.rewrite ⟨[], ['a'], htmlE⟩,
          Ev.rename ⟨[], ['x'], pngE⟩
            (rename_asset pick0 ⟨[], ['x'], pngE⟩)].get? j =
          some (Ev.rename a b) → i < j :=
  claim6_rewrites_before_rename
    [⟨⟨[], ['a'], htmlE⟩, " x.png\n".toList⟩] ⟨[], ['x'], pngE⟩ pick0
    [⟨⟨[], ['a'], htmlE⟩, " x_aaaaaaaa.png\n".toList⟩]
    [Ev.rewrite ⟨[], ['a'], htmlE⟩,
      Ev.rename ⟨[], ['x'], pngE⟩ (rename_asset pick0 ⟨[], ['x'], pngE⟩)]
    (by rfl)

/-- C7: renaming the asset `x.png` referenced by `a.html` succeeds and
yields a suffix of exactly 8 characters drawn from the alphanumeric
alphabet; `a.html` is rewritten to the replaced content, which contains
the new name `x_<suffix>.png` and holds no remaining standalone
occurrence of `x.png`; the file `x.png` no longer exists in the
resulting state, and `x_<suffix>.png` exists in the same directory with
the same extension. -/
theorem claim7_round_trip (d : List Char) (pick : Nat → Fin 62)
    (s bin : List Char) (href : scanContent xpng s = true) :
    ∃ suf : List Char,
      suf.length = 8 ∧
      (∀ c ∈ suf, c ∈ alphabet ∧ c.isAlphanum = true) ∧
      processAsset [⟨⟨d, ['a'], htmlE⟩, s⟩, ⟨⟨d, ['x'], pngE⟩, bin⟩]
          ⟨d, ['x'], pngE⟩ pick =
        .ok ([⟨⟨d, ['a'], htmlE⟩, pyReplace xpng (mkNew suf) s⟩,
              ⟨⟨d, 'x' :: '_' :: suf, pngE⟩, bin⟩],
          [Ev.rewrite ⟨d, ['a'], htmlE⟩,
            Ev.rename ⟨d, ['x'], pngE⟩ ⟨d, 'x' :: '_' :: suf, pngE⟩]) ∧
      containsSub (mkNew suf) (pyReplace xpng (mkNew suf) s) = true ∧
      ¬ standaloneOccur xpng (pyReplace xpng (mkNew suf) s) ∧
      ∀ f ∈ [(⟨⟨d, ['a'], htmlE⟩, pyReplace xpng (mkNew suf) s⟩ : SFile),
             ⟨⟨d, 'x' :: '_' :: suf, pngE⟩, bin⟩],
        f.path ≠ ⟨d, ['x'], pngE⟩ := by
  refine ⟨generate_random_string pick 8, gen_length pick 8,
    fun c hc => ⟨gen_mem hc, alphabet_alnum c (gen_mem hc)⟩, ?_, ?_, ?_, ?_⟩
  · -- the run itself
    have hsearch : search_for_asset_uses
        [⟨⟨d, ['a'], htmlE⟩, s⟩, ⟨⟨d, ['x'], pngE⟩, bin⟩]
        ⟨d, ['x'], pngE⟩ = .ok [⟨d, ['a'], htmlE⟩] := by
      have hsf : sourceFiles
          [⟨⟨d, ['a'], htmlE⟩, s⟩, ⟨⟨d, ['x'], pngE⟩, bin⟩] =
          [⟨⟨d, ['a'], htmlE⟩, s⟩] := rfl
      have hname : searchAssetName ⟨d, ['x'], pngE⟩ = xpng := rfl
      simp [search_for_asset_uses, hsf, hname, fileMatches, href]
    have hnewstem : rename_asset pick ⟨d, ['x'], pngE⟩ =
        ⟨d, 'x' :: '_' :: generate_random_string pick 8, pngE⟩ := rfl
    have hnewname :
        replaceAssetName (rename_asset pick ⟨d, ['x'], pngE⟩) =
          mkNew (generate_random_string pick 8) := by
      rw [hnewstem]
      simp [replaceAssetName, FsPath.suffix, FsPath.name, mkNew, webmExt,
        pngE]
    have hrepl : replace_asset_uses
        [⟨⟨d, ['a'], htmlE⟩, s⟩, ⟨⟨d, ['x'], pngE⟩, bin⟩]
        ⟨d, ['a'], htmlE⟩ ⟨d, ['x'], pngE⟩
        (rename_asset pick ⟨d, ['x'], pngE⟩) =
        [⟨⟨d, ['a'], htmlE⟩,
            pyReplace xpng (mkNew (generate_random_string pick 8)) s⟩,
          ⟨⟨d, ['x'], pngE⟩, bin⟩] := by
      have hold : replaceAssetName ⟨d, ['x'], pngE⟩ = xpng := rfl
      simp [replace_asset_uses, hold, hnewname]
    simp only [processAsset, hsearch, List.foldl, hrepl, List.map,
      hnewstem]
    simp
    rw [← hnewstem, hnewname]
    rfl
  · -- the rewritten a.html contains the new name
    have hsub : containsSub xpng s = true :=
      sub_iff_containsSub.mpr (scanContent_sub href)
    exact sub_iff_containsSub.mpr (pyReplace_new_sub hsub)
  · -- no standalone occurrence of the old name remains
    exact pyReplace_no_standalone gen_word
  · -- the old asset path is gone from the resulting state
    intro f hf
    simp only [List.mem_cons, List.not_mem_nil, or_false] at hf
    rcases hf with rfl | rfl
    · intro he
      simp [FsPath.mk.injEq] at he
    · intro he
      have hlen := congrArg (fun p => p.stem.length) he
      simp [gen_length] at hlen

/-- C7 witness: the round-trip theorem applied to the concrete state
with `a.html` containing ` x.png` and the asset file `x.png`, with the
constant random oracle. -/
theorem claim7_witness :
    scanContent xpng " x.png\n".toList = true ∧
      (∃ suf : List Char,
        suf.length = 8 ∧
        (∀ c ∈ suf, c ∈ alphabet ∧ c.isAlphanum = true) ∧
        processAsset [⟨⟨[], ['a'], htmlE⟩, " x.png\n".toList⟩,
            ⟨⟨[], ['x'], pngE⟩, []⟩] ⟨[], ['x'], pngE⟩ pick0 =
          .ok ([⟨⟨[], ['a'], htmlE⟩,
                  pyReplace xpng (mkNew suf) " x.png\n".toList⟩,
                ⟨⟨[], 'x' :: '_' :: suf, pngE⟩, []⟩],
            [Ev.rewrite ⟨[], ['a'], htmlE⟩,
              Ev.rename ⟨[], ['x'], pngE⟩ ⟨[], 'x' :: '_' :: suf, pngE⟩]) ∧
        containsSub (mkNew suf)
          (pyReplace xpng (mkNew suf) " x.png\n".toList) = true ∧
        ¬ standaloneOccur xpng
          (pyReplace xpng (mkNew suf) " x.png\n".toList) ∧
        ∀ f ∈ [(⟨⟨[], ['a'], htmlE⟩,
                  pyReplace xpng (mkNew suf) " x.png\n".toList⟩ : SFile),
               ⟨⟨[], 'x' :: '_' :: suf, pngE⟩, []⟩],
          f.path ≠ ⟨[], ['x'], pngE⟩) :=
  ⟨rfl, claim7_round_trip [] pick0 " x.png\n".toList [] rfl⟩

end ConstructCacheFixer
